import Mathlib

/-!
# Verification of the solana-snapshot-stats ETL binary

A shallow embedding of the core data model and operations of the
`solana-snapshot-etl` binary (source selection, sequential command loops,
the owner-statistics consumer with its periodic/final flush into the shared
aggregate, the progress-tracking read wrapper, and the SPL token-account
dictionary compressor), together with proofs about the spec's claims.

Conventions of the embedding:
* Byte values and machine integers are modelled as `Nat` (they are only
  compared, counted and summed here, never wrapped).
* A public key is an opaque byte string (`List Nat`), compared by equality.
* Rust `HashMap`s are modelled as association lists with the same
  lookup/insert/update semantics; observations are stated pointwise so the
  (unspecified) iteration order of a hash map is never relied upon.
* Fallible operations return `Except`/`Option`; external collaborator
  functions (wincode serialization, PDA derivation, file/network readers)
  are parameters of the definitions that call them.
-/

namespace SnapshotStats

/-- A public key: an opaque byte string (32 bytes in the Rust code),
compared only for equality. -/
abbrev PubkeyB := List Nat

/-- Per-owner statistics record (`OwnerStats` in `stats.rs`). -/
structure OwnerStats where
  count : Nat
  total_size : Nat
deriving Repr, DecidableEq

/-- A stats map: the model of `HashMap<Pubkey, OwnerStats>`. -/
abbrev StatsMap := List (PubkeyB × OwnerStats)

/-- Look an owner up in a stats map, defaulting to zero counts for an
absent owner (the observable content of `entry(..).or_insert {0,0}`). -/
def statLook : StatsMap → PubkeyB → OwnerStats
  | [], _ => ⟨0, 0⟩
  | (k, v) :: rest, q => if k = q then v else statLook rest q

/-- `m.entry(k).or_insert(OwnerStats{0,0}); entry.count += dc;
entry.total_size += ds` on the association-list model of the hash map. -/
def updateAdd (m : StatsMap) (k : PubkeyB) (dc ds : Nat) : StatsMap :=
  match m with
  | [] => [(k, ⟨dc, ds⟩)]
  | (k', v) :: rest =>
    if k' = k then (k', ⟨v.count + dc, v.total_size + ds⟩) :: rest
    else (k', v) :: updateAdd rest k dc ds

/-- Total count recorded for owner `q` across all entries of a stats map. -/
def ownerCount : StatsMap → PubkeyB → Nat
  | [], _ => 0
  | (k, v) :: rest, q => (if k = q then v.count else 0) + ownerCount rest q

/-- Total size recorded for owner `q` across all entries of a stats map. -/
def ownerSize : StatsMap → PubkeyB → Nat
  | [], _ => 0
  | (k, v) :: rest, q => (if k = q then v.total_size else 0) + ownerSize rest q

theorem statLook_updateAdd (m : StatsMap) (k : PubkeyB) (dc ds : Nat) (q : PubkeyB) :
    statLook (updateAdd m k dc ds) q =
      if k = q then ⟨(statLook m q).count + dc, (statLook m q).total_size + ds⟩
      else statLook m q := by
  induction m with
  | nil =>
    by_cases h : k = q <;> simp [updateAdd, statLook, h]
  | cons kv rest ih =>
    obtain ⟨k', v⟩ := kv
    by_cases h1 : k' = k
    · subst h1
      by_cases h2 : k' = q <;> simp [updateAdd, statLook, h2]
    · by_cases h2 : k' = q
      · subst h2
        have hkq : ¬ k = k' := fun h => h1 h.symm
        simp [updateAdd, statLook, h1, hkq]
      · simp [updateAdd, statLook, h1, h2, ih]

theorem ownerCount_updateAdd (m : StatsMap) (k : PubkeyB) (dc ds : Nat) (q : PubkeyB) :
    ownerCount (updateAdd m k dc ds) q =
      ownerCount m q + (if k = q then dc else 0) := by
  induction m with
  | nil => by_cases h : k = q <;> simp [updateAdd, ownerCount, h]
  | cons kv rest ih =>
    obtain ⟨k', v⟩ := kv
    by_cases h1 : k' = k
    · subst h1
      by_cases h2 : k' = q <;> simp [updateAdd, ownerCount, h2] <;> omega
    · by_cases h2 : k' = q
      · subst h2
        have hkq : ¬ k' = k := h1
        simp [updateAdd, ownerCount, h1, ih]
        omega
      · simp [updateAdd, ownerCount, h1, h2, ih]

theorem ownerSize_updateAdd (m : StatsMap) (k : PubkeyB) (dc ds : Nat) (q : PubkeyB) :
    ownerSize (updateAdd m k dc ds) q =
      ownerSize m q + (if k = q then ds else 0) := by
  induction m with
  | nil => by_cases h : k = q <;> simp [updateAdd, ownerSize, h]
  | cons kv rest ih =>
    obtain ⟨k', v⟩ := kv
    by_cases h1 : k' = k
    · subst h1
      by_cases h2 : k' = q <;> simp [updateAdd, ownerSize, h2] <;> omega
    · by_cases h2 : k' = q
      · subst h2
        simp [updateAdd, ownerSize, h1, ih]
        omega
      · simp [updateAdd, ownerSize, h1, h2, ih]

/-! ## The owner-statistics consumer (`stats.rs`)

`SharedStats` is the shared aggregate (`accounts_count: AtomicU64` plus the
mutex-guarded `stats_by_owner` map); `StatsConsumer` is the worker-local
state.  `flush` mirrors `StatsConsumer::flush`, `onAccount` the body of the
per-account loop of `StatsConsumer::on_append_vec`, and `dropConsumer` the
`Drop` implementation (an unconditional call to `flush`).  The progress
spinner and the periodic `print_stats` call are observational output and are
not part of the state. -/

/-- The shared aggregate of `stats.rs` (`SharedStats`). -/
structure SharedStats where
  accounts_count : Nat
  stats_by_owner : StatsMap
deriving Repr, DecidableEq

/-- Worker-local state of `stats.rs` (`StatsConsumer`), minus the `Arc`
back-reference to the shared aggregate, which is passed explicitly. -/
structure StatsConsumer where
  local_stats : StatsMap
  local_count : Nat
deriving Repr, DecidableEq

/-- `const FLUSH_INTERVAL: u64 = 10_000_000` in `stats.rs`. -/
def FLUSH_INTERVAL : Nat := 10000000

/-- Draining the local map into the shared map: for each local entry the
shared entry is created at zero if absent and then incremented
(`stats.rs`, `flush`, the `for (owner, local) in self.local_stats.drain()`
loop). -/
def mergeStats (shared locals : StatsMap) : StatsMap :=
  locals.foldl (fun m kv => updateAdd m kv.1 kv.2.count kv.2.total_size) shared

/-- `StatsConsumer::flush`: early-returns when `local_count == 0`; otherwise
drains the local map into the shared map, adds `local_count` to the shared
counter and resets `local_count` to zero. -/
def StatsConsumer.flush (c : StatsConsumer) (sh : SharedStats) :
    StatsConsumer × SharedStats :=
  if c.local_count = 0 then (c, sh)
  else
    ({ local_stats := [], local_count := 0 },
     { accounts_count := sh.accounts_count + c.local_count,
       stats_by_owner := mergeStats sh.stats_by_owner c.local_stats })

/-- `impl Drop for StatsConsumer`: an unconditional call to `flush`. -/
def dropConsumer (c : StatsConsumer) (sh : SharedStats) :
    StatsConsumer × SharedStats :=
  c.flush sh

/-- The fields of one account record that the stats consumer reads: the
owning program and the length of the data payload. -/
structure AccountRec where
  owner : PubkeyB
  data_len : Nat
deriving Repr, DecidableEq

/-- Number of accounts in a list owned by `q` (the reference aggregate the
consumer is meant to compute). -/
def aggCount : List AccountRec → PubkeyB → Nat
  | [], _ => 0
  | a :: rest, q => (if a.owner = q then 1 else 0) + aggCount rest q

/-- Total data size of the accounts in a list owned by `q`. -/
def aggSize : List AccountRec → PubkeyB → Nat
  | [], _ => 0
  | a :: rest, q => (if a.owner = q then a.data_len else 0) + aggSize rest q

theorem aggCount_append (l1 l2 : List AccountRec) (q : PubkeyB) :
    aggCount (l1 ++ l2) q = aggCount l1 q + aggCount l2 q := by
  induction l1 with
  | nil => simp [aggCount]
  | cons a rest ih => simp [aggCount, ih]; omega

theorem aggSize_append (l1 l2 : List AccountRec) (q : PubkeyB) :
    aggSize (l1 ++ l2) q = aggSize l1 q + aggSize l2 q := by
  induction l1 with
  | nil => simp [aggSize]
  | cons a rest ih => simp [aggSize, ih]; omega

/-- The body of the per-account loop of `StatsConsumer::on_append_vec`:
bump the local entry for the account's owner, bump `local_count`, and flush
when `local_count` has reached `FLUSH_INTERVAL`. -/
def StatsConsumer.onAccount (c : StatsConsumer) (sh : SharedStats)
    (a : AccountRec) : StatsConsumer × SharedStats :=
  let c' : StatsConsumer :=
    { local_stats := updateAdd c.local_stats a.owner 1 a.data_len,
      local_count := c.local_count + 1 }
  if FLUSH_INTERVAL ≤ c'.local_count then c'.flush sh else (c', sh)

/-- `StatsConsumer::on_append_vec`: the loop over all accounts decoded from
one storage segment. -/
def StatsConsumer.onAppendVec (c : StatsConsumer) (sh : SharedStats) :
    List AccountRec → StatsConsumer × SharedStats
  | [] => (c, sh)
  | a :: rest =>
    let p := c.onAccount sh a
    p.1.onAppendVec p.2 rest

/-- Pointwise content of a local-map drain: the merged shared map holds, at
every owner, the shared totals plus the local totals. -/
theorem statLook_mergeStats (locals shared : StatsMap) (q : PubkeyB) :
    statLook (mergeStats shared locals) q =
      ⟨(statLook shared q).count + ownerCount locals q,
       (statLook shared q).total_size + ownerSize locals q⟩ := by
  induction locals generalizing shared with
  | nil => simp [mergeStats, ownerCount, ownerSize]
  | cons kv rest ih =>
    obtain ⟨k, v⟩ := kv
    have hstep : mergeStats shared ((k, v) :: rest) =
        mergeStats (updateAdd shared k v.count v.total_size) rest := rfl
    rw [hstep, ih, statLook_updateAdd]
    by_cases h : k = q <;>
      simp [ownerCount, ownerSize, h] <;> constructor <;> omega

/-- The combined observation preserved by a flush: one pointwise per-owner
total (shared plus local) and the combined account count. -/
theorem flush_conserves (c : StatsConsumer) (sh : SharedStats) :
    (c.flush sh).2.accounts_count + (c.flush sh).1.local_count =
      sh.accounts_count + c.local_count ∧
    ∀ q,
      (statLook (c.flush sh).2.stats_by_owner q).count +
          ownerCount (c.flush sh).1.local_stats q =
        (statLook sh.stats_by_owner q).count + ownerCount c.local_stats q ∧
      (statLook (c.flush sh).2.stats_by_owner q).total_size +
          ownerSize (c.flush sh).1.local_stats q =
        (statLook sh.stats_by_owner q).total_size + ownerSize c.local_stats q := by
  by_cases h : c.local_count = 0
  · simp [StatsConsumer.flush, h]
  · refine ⟨by simp [StatsConsumer.flush, h], fun q => ?_⟩
    simp [StatsConsumer.flush, h, statLook_mergeStats, ownerCount, ownerSize]

/-- The per-account step adds one account with the account's owner and data
length to the combined (shared plus local) totals. -/
theorem onAccount_conserves (c : StatsConsumer) (sh : SharedStats)
    (a : AccountRec) :
    (c.onAccount sh a).2.accounts_count + (c.onAccount sh a).1.local_count =
      sh.accounts_count + c.local_count + 1 ∧
    ∀ q,
      (statLook (c.onAccount sh a).2.stats_by_owner q).count +
          ownerCount (c.onAccount sh a).1.local_stats q =
        (statLook sh.stats_by_owner q).count + ownerCount c.local_stats q +
          (if a.owner = q then 1 else 0) ∧
      (statLook (c.onAccount sh a).2.stats_by_owner q).total_size +
          ownerSize (c.onAccount sh a).1.local_stats q =
        (statLook sh.stats_by_owner q).total_size + ownerSize c.local_stats q +
          (if a.owner = q then a.data_len else 0) := by
  set c1 : StatsConsumer :=
    { local_stats := updateAdd c.local_stats a.owner 1 a.data_len,
      local_count := c.local_count + 1 } with hc1
  have hcount : ∀ q, ownerCount c1.local_stats q =
      ownerCount c.local_stats q + (if a.owner = q then 1 else 0) := by
    intro q; simp [hc1, ownerCount_updateAdd]
  have hsize : ∀ q, ownerSize c1.local_stats q =
      ownerSize c.local_stats q + (if a.owner = q then a.data_len else 0) := by
    intro q; simp [hc1, ownerSize_updateAdd]
  by_cases h : FLUSH_INTERVAL ≤ c1.local_count
  · have hres : c.onAccount sh a = c1.flush sh := by
      simp [StatsConsumer.onAccount, hc1, h]
    obtain ⟨h1, h2⟩ := flush_conserves c1 sh
    rw [hres]
    refine ⟨by rw [h1]; simp [hc1]; omega, fun q => ?_⟩
    obtain ⟨h2c, h2s⟩ := h2 q
    rw [h2c, h2s, hcount q, hsize q]
    constructor <;> omega
  · have hres : c.onAccount sh a = (c1, sh) := by
      simp [StatsConsumer.onAccount, hc1, h]
    rw [hres]
    refine ⟨by simp [hc1]; omega, fun q => ?_⟩
    rw [hcount q, hsize q]
    constructor <;> simp <;> omega

/-- A whole-segment walk adds each of the segment's accounts to the combined
(shared plus local) totals. -/
theorem onAppendVec_conserves (accounts : List AccountRec)
    (c : StatsConsumer) (sh : SharedStats) :
    (c.onAppendVec sh accounts).2.accounts_count +
        (c.onAppendVec sh accounts).1.local_count =
      sh.accounts_count + c.local_count + accounts.length ∧
    ∀ q,
      (statLook (c.onAppendVec sh accounts).2.stats_by_owner q).count +
          ownerCount (c.onAppendVec sh accounts).1.local_stats q =
        (statLook sh.stats_by_owner q).count + ownerCount c.local_stats q +
          aggCount accounts q ∧
      (statLook (c.onAppendVec sh accounts).2.stats_by_owner q).total_size +
          ownerSize (c.onAppendVec sh accounts).1.local_stats q =
        (statLook sh.stats_by_owner q).total_size + ownerSize c.local_stats q +
          aggSize accounts q := by
  induction accounts generalizing c sh with
  | nil => simp [StatsConsumer.onAppendVec, aggCount, aggSize]
  | cons a rest ih =>
    have hstep : c.onAppendVec sh (a :: rest) =
        (c.onAccount sh a).1.onAppendVec (c.onAccount sh a).2 rest := rfl
    obtain ⟨ha1, ha2⟩ := onAccount_conserves c sh a
    obtain ⟨hi1, hi2⟩ := ih (c.onAccount sh a).1 (c.onAccount sh a).2
    rw [hstep]
    refine ⟨by rw [hi1, ha1]; simp; omega, fun q => ?_⟩
    obtain ⟨hi2c, hi2s⟩ := hi2 q
    obtain ⟨ha2c, ha2s⟩ := ha2 q
    rw [hi2c, hi2s, ha2c, ha2s]
    constructor <;> simp [aggCount, aggSize] <;> by_cases h : a.owner = q <;>
      simp [h] <;> omega

/-- Reachability invariant of a consumer: a zero local count means an empty
local map (every account bumping the map also bumps the count, and flushes
clear both together). -/
def EmptyInv (c : StatsConsumer) : Prop :=
  c.local_count = 0 → c.local_stats = []

theorem emptyInv_flush {c : StatsConsumer} (h : EmptyInv c)
    (sh : SharedStats) : EmptyInv (c.flush sh).1 := by
  by_cases h0 : c.local_count = 0
  · simpa [StatsConsumer.flush, h0, EmptyInv] using h h0
  · simp [StatsConsumer.flush, h0, EmptyInv]

theorem emptyInv_onAccount (c : StatsConsumer) (sh : SharedStats)
    (a : AccountRec) : EmptyInv (c.onAccount sh a).1 := by
  set c1 : StatsConsumer :=
    { local_stats := updateAdd c.local_stats a.owner 1 a.data_len,
      local_count := c.local_count + 1 } with hc1
  have hinv1 : EmptyInv c1 := by intro h; simp [hc1] at h
  by_cases h : FLUSH_INTERVAL ≤ c1.local_count
  · have : c.onAccount sh a = c1.flush sh := by
      simp [StatsConsumer.onAccount, hc1, h]
    rw [this]; exact emptyInv_flush hinv1 sh
  · have : c.onAccount sh a = (c1, sh) := by
      simp [StatsConsumer.onAccount, hc1, h]
    rw [this]; exact hinv1

theorem emptyInv_onAppendVec (accounts : List AccountRec)
    {c : StatsConsumer} (h : EmptyInv c) (sh : SharedStats) :
    EmptyInv (c.onAppendVec sh accounts).1 := by
  induction accounts generalizing c sh with
  | nil => exact h
  | cons a rest ih =>
    have hstep : c.onAppendVec sh (a :: rest) =
        (c.onAccount sh a).1.onAppendVec (c.onAccount sh a).2 rest := rfl
    rw [hstep]
    exact ih (emptyInv_onAccount c sh a) _

/-! ## The parallel iteration engine, at flush granularity

`par_iter_append_vecs` (library crate) hands each worker a fresh consumer
from the factory, feeds it segments, and drops it when the sequence is
exhausted; each flush only adds the worker-local totals into the shared
aggregate, so the shared aggregate after a run is determined by the
multiset of all accounts, not by the partition into workers or by the
interleaving of their flushes.  A run is modelled as each worker's
processing of its share of the segments followed by its final drop-flush,
folded over the workers. -/

/-- A worker's whole run: a fresh consumer (as built by
`StatsConsumerFactory::new_consumer`) walks its segments and is dropped
(final unconditional flush) at the end. -/
def runWorker (sh : SharedStats) (segs : List (List AccountRec)) :
    SharedStats :=
  let p := segs.foldl
    (fun (p : StatsConsumer × SharedStats) seg => p.1.onAppendVec p.2 seg)
    ({ local_stats := [], local_count := 0 }, sh)
  (dropConsumer p.1 p.2).2

/-- An engine run over a partition of the segments: every worker processes
its share and merges into the shared aggregate. -/
def runEngine (sh : SharedStats) (partition : List (List (List AccountRec))) :
    SharedStats :=
  partition.foldl runWorker sh

theorem foldl_onAppendVec_conserves (segs : List (List AccountRec))
    (c : StatsConsumer) (sh : SharedStats) :
    (segs.foldl
        (fun (p : StatsConsumer × SharedStats) seg => p.1.onAppendVec p.2 seg)
        (c, sh)).2.accounts_count +
      (segs.foldl
        (fun (p : StatsConsumer × SharedStats) seg => p.1.onAppendVec p.2 seg)
        (c, sh)).1.local_count =
      sh.accounts_count + c.local_count + segs.flatten.length ∧
    ∀ q,
      (statLook (segs.foldl
          (fun (p : StatsConsumer × SharedStats) seg => p.1.onAppendVec p.2 seg)
          (c, sh)).2.stats_by_owner q).count +
        ownerCount (segs.foldl
          (fun (p : StatsConsumer × SharedStats) seg => p.1.onAppendVec p.2 seg)
          (c, sh)).1.local_stats q =
        (statLook sh.stats_by_owner q).count + ownerCount c.local_stats q +
          aggCount segs.flatten q ∧
      (statLook (segs.foldl
          (fun (p : StatsConsumer × SharedStats) seg => p.1.onAppendVec p.2 seg)
          (c, sh)).2.stats_by_owner q).total_size +
        ownerSize (segs.foldl
          (fun (p : StatsConsumer × SharedStats) seg => p.1.onAppendVec p.2 seg)
          (c, sh)).1.local_stats q =
        (statLook sh.stats_by_owner q).total_size + ownerSize c.local_stats q +
          aggSize segs.flatten q := by
  induction segs generalizing c sh with
  | nil => simp [aggCount, aggSize]
  | cons seg rest ih =>
    obtain ⟨ha1, ha2⟩ := onAppendVec_conserves seg c sh
    obtain ⟨hi1, hi2⟩ := ih (c.onAppendVec sh seg).1 (c.onAppendVec sh seg).2
    have hstep : ((seg :: rest).foldl
        (fun (p : StatsConsumer × SharedStats) s => p.1.onAppendVec p.2 s)
        (c, sh)) = (rest.foldl
        (fun (p : StatsConsumer × SharedStats) s => p.1.onAppendVec p.2 s)
        ((c.onAppendVec sh seg).1, (c.onAppendVec sh seg).2)) := by
      simp
    rw [hstep]
    refine ⟨by rw [hi1, ha1]; simp; omega, fun q => ?_⟩
    obtain ⟨hi2c, hi2s⟩ := hi2 q
    obtain ⟨ha2c, ha2s⟩ := ha2 q
    rw [hi2c, hi2s, ha2c, ha2s]
    constructor <;> simp [List.flatten_cons, aggCount_append, aggSize_append] <;>
      omega

theorem emptyInv_foldl (segs : List (List AccountRec)) {c : StatsConsumer}
    (h : EmptyInv c) (sh : SharedStats) :
    EmptyInv (segs.foldl
      (fun (p : StatsConsumer × SharedStats) seg => p.1.onAppendVec p.2 seg)
      (c, sh)).1 := by
  induction segs generalizing c sh with
  | nil => exact h
  | cons seg rest ih =>
    have hstep : ((seg :: rest).foldl
        (fun (p : StatsConsumer × SharedStats) s => p.1.onAppendVec p.2 s)
        (c, sh)) = (rest.foldl
        (fun (p : StatsConsumer × SharedStats) s => p.1.onAppendVec p.2 s)
        ((c.onAppendVec sh seg).1, (c.onAppendVec sh seg).2)) := by
      simp
    rw [hstep]
    exact ih (emptyInv_onAppendVec seg h sh) _

/-- After a worker's run (fresh consumer, all its segments, final
drop-flush) the shared aggregate has gained exactly the aggregate of the
worker's accounts. -/
theorem runWorker_spec (sh : SharedStats) (segs : List (List AccountRec)) :
    (runWorker sh segs).accounts_count =
      sh.accounts_count + segs.flatten.length ∧
    ∀ q, statLook (runWorker sh segs).stats_by_owner q =
      ⟨(statLook sh.stats_by_owner q).count + aggCount segs.flatten q,
       (statLook sh.stats_by_owner q).total_size + aggSize segs.flatten q⟩ := by
  set c0 : StatsConsumer := { local_stats := [], local_count := 0 } with hc0
  set p := segs.foldl
    (fun (p : StatsConsumer × SharedStats) seg => p.1.onAppendVec p.2 seg)
    (c0, sh) with hp
  have hinv : EmptyInv p.1 := by
    rw [hp]
    exact emptyInv_foldl segs (by intro _; rfl) sh
  obtain ⟨hf1, hf2⟩ := foldl_onAppendVec_conserves segs c0 sh
  rw [← hp] at hf1 hf2
  have hrw : runWorker sh segs = (p.1.flush p.2).2 := rfl
  have hfinal : (p.1.flush p.2).1.local_stats = [] ∧
      (p.1.flush p.2).1.local_count = 0 := by
    by_cases h0 : p.1.local_count = 0
    · simp [StatsConsumer.flush, h0, hinv h0]
    · simp [StatsConsumer.flush, h0]
  obtain ⟨g1, g2⟩ := flush_conserves p.1 p.2
  rw [hrw]
  constructor
  · rw [hfinal.2] at g1
    simp [hc0] at hf1
    simp [List.length_flatten]
    omega
  · intro q
    obtain ⟨g2c, g2s⟩ := g2 q
    obtain ⟨hf2c, hf2s⟩ := hf2 q
    rw [hfinal.1] at g2c g2s
    simp [ownerCount] at g2c
    simp [ownerSize] at g2s
    simp [hc0, ownerCount, ownerSize] at hf2c hf2s
    have : statLook (p.1.flush p.2).2.stats_by_owner q =
        ⟨(statLook (p.1.flush p.2).2.stats_by_owner q).count,
         (statLook (p.1.flush p.2).2.stats_by_owner q).total_size⟩ := rfl
    rw [this, g2c, g2s, hf2c, hf2s]

/-- After an engine run over a partition, the shared aggregate has gained
exactly the aggregate of all accounts of all workers. -/
theorem runEngine_spec (partition : List (List (List AccountRec)))
    (sh : SharedStats) :
    (runEngine sh partition).accounts_count =
      sh.accounts_count + partition.flatten.flatten.length ∧
    ∀ q, statLook (runEngine sh partition).stats_by_owner q =
      ⟨(statLook sh.stats_by_owner q).count +
         aggCount partition.flatten.flatten q,
       (statLook sh.stats_by_owner q).total_size +
         aggSize partition.flatten.flatten q⟩ := by
  induction partition generalizing sh with
  | nil => simp [runEngine, aggCount, aggSize]
  | cons w rest ih =>
    have hstep : runEngine sh (w :: rest) = runEngine (runWorker sh w) rest := by
      simp [runEngine]
    obtain ⟨hw1, hw2⟩ := runWorker_spec sh w
    obtain ⟨hi1, hi2⟩ := ih (runWorker sh w)
    rw [hstep]
    constructor
    · rw [hi1, hw1]
      simp [List.flatten_cons, List.length_append]
      omega
    · intro q
      rw [hi2 q, hw2 q]
      simp [List.flatten_cons, aggCount_append, aggSize_append]
      constructor <;> omega

theorem aggCount_perm {l1 l2 : List AccountRec} (h : l1.Perm l2)
    (q : PubkeyB) : aggCount l1 q = aggCount l2 q := by
  induction h with
  | nil => rfl
  | cons a _ ih => simp [aggCount, ih]
  | swap a b l => simp [aggCount]; omega
  | trans _ _ ih1 ih2 => rw [ih1, ih2]

theorem aggSize_perm {l1 l2 : List AccountRec} (h : l1.Perm l2)
    (q : PubkeyB) : aggSize l1 q = aggSize l2 q := by
  induction h with
  | nil => rfl
  | cons a _ ih => simp [aggSize, ih]
  | swap a b l => simp [aggSize]; omega
  | trans _ _ ih1 ih2 => rw [ih1, ih2]

theorem onAccount_count_lt (c : StatsConsumer) (sh : SharedStats)
    (a : AccountRec) :
    (c.onAccount sh a).1.local_count < FLUSH_INTERVAL := by
  set c1 : StatsConsumer :=
    { local_stats := updateAdd c.local_stats a.owner 1 a.data_len,
      local_count := c.local_count + 1 } with hc1
  by_cases hge : FLUSH_INTERVAL ≤ c1.local_count
  · have hres : c.onAccount sh a = c1.flush sh := by
      simp [StatsConsumer.onAccount, hc1, hge]
    have hne : ¬ c1.local_count = 0 := by simp [hc1]
    rw [hres]
    simp [StatsConsumer.flush, hne, FLUSH_INTERVAL]
  · have hres : c.onAccount sh a = (c1, sh) := by
      simp [StatsConsumer.onAccount, hc1, hge]
    rw [hres]
    have hcc : (c1, sh).1.local_count = c.local_count + 1 := by rw [hc1]
    have hb : c1.local_count = c.local_count + 1 := by rw [hc1]
    omega

theorem onAppendVec_count_lt (accounts : List AccountRec) {c : StatsConsumer}
    (h : c.local_count < FLUSH_INTERVAL) (sh : SharedStats) :
    (c.onAppendVec sh accounts).1.local_count < FLUSH_INTERVAL := by
  induction accounts generalizing c sh with
  | nil => exact h
  | cons a rest ih =>
    have hstep : c.onAppendVec sh (a :: rest) =
        (c.onAccount sh a).1.onAppendVec (c.onAccount sh a).2 rest := rfl
    rw [hstep]
    exact ih (onAccount_count_lt c sh a) _

/-- **C3.** When a `StatsConsumer` is dropped on normal completion, the
final merge empties its local buffer into the shared aggregate: afterwards
the local map is empty and the local count is zero, every shared per-owner
entry has gained exactly the local per-owner count and total size, and the
shared account counter has gained exactly the local count.  The hypothesis
is the reachability invariant that a zero local count means an empty local
map (established by `emptyInv_onAppendVec`: fresh consumers satisfy it and
every account step preserves it). -/
theorem claim_C3_drop_final_flush (c : StatsConsumer) (sh : SharedStats)
    (hinv : c.local_count = 0 → c.local_stats = []) :
    (dropConsumer c sh).1.local_stats = [] ∧
    (dropConsumer c sh).1.local_count = 0 ∧
    (∀ q, (statLook (dropConsumer c sh).2.stats_by_owner q).count =
        (statLook sh.stats_by_owner q).count + ownerCount c.local_stats q ∧
      (statLook (dropConsumer c sh).2.stats_by_owner q).total_size =
        (statLook sh.stats_by_owner q).total_size + ownerSize c.local_stats q) ∧
    (dropConsumer c sh).2.accounts_count = sh.accounts_count + c.local_count := by
  by_cases h0 : c.local_count = 0
  · have hls : c.local_stats = [] := hinv h0
    simp [dropConsumer, StatsConsumer.flush, h0, hls, ownerCount, ownerSize]
  · simp [dropConsumer, StatsConsumer.flush, h0, statLook_mergeStats]

theorem claim_C3_witness :
    (((StatsConsumer.mk [([1], ⟨2, 10⟩)] 2).local_count = 0 →
       (StatsConsumer.mk [([1], ⟨2, 10⟩)] 2).local_stats = []) ∧
     (dropConsumer ⟨[([1], ⟨2, 10⟩)], 2⟩ ⟨5, [([1], ⟨1, 3⟩)]⟩).1.local_stats
       = []) ∧
    (dropConsumer ⟨[([1], ⟨2, 10⟩)], 2⟩ ⟨5, [([1], ⟨1, 3⟩)]⟩).1.local_count
      = 0 ∧
    (statLook (dropConsumer ⟨[([1], ⟨2, 10⟩)], 2⟩
        ⟨5, [([1], ⟨1, 3⟩)]⟩).2.stats_by_owner [1]).count =
      (statLook [([1], ⟨1, 3⟩)] [1]).count + ownerCount [([1], ⟨2, 10⟩)] [1] ∧
    (dropConsumer ⟨[([1], ⟨2, 10⟩)], 2⟩ ⟨5, [([1], ⟨1, 3⟩)]⟩).2.accounts_count
      = 5 + 2 :=
  ⟨⟨by decide,
    (claim_C3_drop_final_flush ⟨[([1], ⟨2, 10⟩)], 2⟩ ⟨5, [([1], ⟨1, 3⟩)]⟩
      (by decide)).1⟩,
   (claim_C3_drop_final_flush ⟨[([1], ⟨2, 10⟩)], 2⟩ ⟨5, [([1], ⟨1, 3⟩)]⟩
      (by decide)).2.1,
   ((claim_C3_drop_final_flush ⟨[([1], ⟨2, 10⟩)], 2⟩ ⟨5, [([1], ⟨1, 3⟩)]⟩
      (by decide)).2.2.1 [1]).1,
   (claim_C3_drop_final_flush ⟨[([1], ⟨2, 10⟩)], 2⟩ ⟨5, [([1], ⟨1, 3⟩)]⟩
      (by decide)).2.2.2⟩

/-- **C4.** While a `StatsConsumer` processes the accounts of a segment,
the shared aggregate is untouched except at flush points: a per-account
step whose new local count stays below `FLUSH_INTERVAL` (10,000,000) leaves
the shared aggregate unchanged and only bumps the local count; a step whose
new local count reaches the interval flushes and resets the local count to
zero; and a local count below the interval stays below the interval across
a whole segment walk. -/
theorem claim_C4_frame_flush_interval (c : StatsConsumer) (sh : SharedStats)
    (a : AccountRec) (accounts : List AccountRec) :
    (c.local_count + 1 < FLUSH_INTERVAL →
      (c.onAccount sh a).2 = sh ∧
      (c.onAccount sh a).1.local_count = c.local_count + 1) ∧
    (FLUSH_INTERVAL ≤ c.local_count + 1 →
      (c.onAccount sh a).1.local_count = 0) ∧
    (c.local_count < FLUSH_INTERVAL →
      (c.onAppendVec sh accounts).1.local_count < FLUSH_INTERVAL) := by
  refine ⟨fun hlt => ?_, fun hge => ?_, fun hlt => ?_⟩
  · have hcond : ¬ FLUSH_INTERVAL ≤ c.local_count + 1 := by omega
    simp [StatsConsumer.onAccount, hcond]
  · have hne : ¬ c.local_count + 1 = 0 := by omega
    simp [StatsConsumer.onAccount, hge, StatsConsumer.flush, hne]
  · exact onAppendVec_count_lt accounts hlt sh

theorem claim_C4_witness :
    ((0 : Nat) + 1 < FLUSH_INTERVAL ∧ FLUSH_INTERVAL ≤ 9999999 + 1 ∧
     (0 : Nat) < FLUSH_INTERVAL) ∧
    ((StatsConsumer.mk [] 0).onAccount ⟨0, []⟩ ⟨[1], 4⟩).2 = ⟨0, []⟩ ∧
    ((StatsConsumer.mk [([1], ⟨9999999, 0⟩)] 9999999).onAccount
        ⟨0, []⟩ ⟨[1], 4⟩).1.local_count = 0 ∧
    ((StatsConsumer.mk [] 0).onAppendVec ⟨0, []⟩
        [⟨[1], 4⟩]).1.local_count < FLUSH_INTERVAL :=
  ⟨⟨by decide, by decide, by decide⟩,
   ((claim_C4_frame_flush_interval ⟨[], 0⟩ ⟨0, []⟩ ⟨[1], 4⟩ [⟨[1], 4⟩]).1
      (by decide)).1,
   (claim_C4_frame_flush_interval ⟨[([1], ⟨9999999, 0⟩)], 9999999⟩ ⟨0, []⟩
      ⟨[1], 4⟩ []).2.1 (by decide),
   (claim_C4_frame_flush_interval ⟨[], 0⟩ ⟨0, []⟩ ⟨[1], 4⟩ [⟨[1], 4⟩]).2.2
      (by decide)⟩

/-- **C5.** Running the engine over any two partitions of the same multiset
of accounts (in particular one worker versus eight) yields identical shared
aggregate totals: the per-owner map is pointwise equal and the account
counters coincide. -/
theorem claim_C5_partition_independence
    (P1 P2 : List (List (List AccountRec))) (sh : SharedStats)
    (hperm : P1.flatten.flatten.Perm P2.flatten.flatten) :
    (∀ q, statLook (runEngine sh P1).stats_by_owner q =
          statLook (runEngine sh P2).stats_by_owner q) ∧
    (runEngine sh P1).accounts_count = (runEngine sh P2).accounts_count := by
  obtain ⟨h11, h12⟩ := runEngine_spec P1 sh
  obtain ⟨h21, h22⟩ := runEngine_spec P2 sh
  refine ⟨fun q => ?_, ?_⟩
  · rw [h12 q, h22 q, aggCount_perm hperm q, aggSize_perm hperm q]
  · rw [h11, h21, hperm.length_eq]

theorem claim_C5_witness :
    ([⟨[1], 4⟩, ⟨[2], 7⟩] : List AccountRec).Perm [⟨[1], 4⟩, ⟨[2], 7⟩] ∧
    statLook (runEngine ⟨0, []⟩
        [[[⟨[1], 4⟩, ⟨[2], 7⟩]]]).stats_by_owner [1] =
      statLook (runEngine ⟨0, []⟩
        [[[⟨[1], 4⟩]], [[⟨[2], 7⟩]]]).stats_by_owner [1] ∧
    (runEngine ⟨0, []⟩ [[[⟨[1], 4⟩, ⟨[2], 7⟩]]]).accounts_count =
      (runEngine ⟨0, []⟩ [[[⟨[1], 4⟩]], [[⟨[2], 7⟩]]]).accounts_count :=
  ⟨List.Perm.refl _,
   (claim_C5_partition_independence [[[⟨[1], 4⟩, ⟨[2], 7⟩]]]
      [[[⟨[1], 4⟩]], [[⟨[2], 7⟩]]] ⟨0, []⟩ (List.Perm.refl _)).1 [1],
   (claim_C5_partition_independence [[[⟨[1], 4⟩, ⟨[2], 7⟩]]]
      [[[⟨[1], 4⟩]], [[⟨[2], 7⟩]]] ⟨0, []⟩ (List.Perm.refl _)).2⟩

/-! ## Sequential command loops over the snapshot sequence (`cmd_compression_benchmark.rs`, `cmd_debug.rs`)

The snapshot facade yields a sequence of segment-or-error values.  The
compression-benchmark command matches on each value, logging errors and
handing `Ok` segments to its consumer; the debug command instead applies
`?` to each value, propagating the first error out of `run`.  A segment is
modelled by the list of its decoded accounts; consumer-internal effects
(zstd encoding, printing) are observational and are abstracted to the list
of segments handed over. -/

/-- A storage segment, as the account records its decode yields. -/
abbrev AppendVecSeg := List AccountRec

/-- One element of the snapshot facade's sequence: a segment or a
per-segment error value. -/
abbrev SegResult := Except String AppendVecSeg

/-- The payloads of the `Ok` elements of a sequence, in order. -/
def okSegs : List SegResult → List AppendVecSeg
  | [] => []
  | Except.ok v :: rest => v :: okSegs rest
  | Except.error _ :: rest => okSegs rest

/-- The error values of a sequence, in order. -/
def errSegs : List SegResult → List String
  | [] => []
  | Except.ok _ :: rest => errSegs rest
  | Except.error e :: rest => e :: errSegs rest

/-- Observable outcome of the compression-benchmark loop: the segments
handed to `consumer.on_append_vec` and the errors handed to `error!`. -/
structure BenchLoop where
  processed : List AppendVecSeg
  logged : List String
deriving Repr, DecidableEq

/-- The `for append_vec in loader.iter()` loop of
`cmd_compression_benchmark::run`: `Ok(v)` goes to the consumer, `Err(err)`
is logged, and the loop always continues. -/
def cmdCompressionBenchmarkLoop : List SegResult → BenchLoop → BenchLoop
  | [], st => st
  | Except.ok v :: rest, st =>
    cmdCompressionBenchmarkLoop rest { st with processed := st.processed ++ [v] }
  | Except.error e :: rest, st =>
    cmdCompressionBenchmarkLoop rest { st with logged := st.logged ++ [e] }

/-- `cmd_compression_benchmark::run`: runs the loop over the whole sequence
and returns `Ok(())`. -/
def cmdCompressionBenchmarkRun (segs : List SegResult) :
    Except String Unit × BenchLoop :=
  (Except.ok (), cmdCompressionBenchmarkLoop segs ⟨[], []⟩)

/-- The inner account loop of `cmd_debug::run` over one segment: counts
accounts matching the owner filter and reports whether `break 'outer` fired
(`found >= max_count` after an increment). -/
def debugScanSeg (ownerF : PubkeyB) (maxCount : Nat) :
    Nat → AppendVecSeg → Nat × Bool
  | found, [] => (found, false)
  | found, a :: rest =>
    if a.owner = ownerF then
      if maxCount ≤ found + 1 then (found + 1, true)
      else debugScanSeg ownerF maxCount (found + 1) rest
    else debugScanSeg ownerF maxCount found rest

/-- `cmd_debug::run`: `let append_vec = append_vec?;` propagates a
per-segment error value out of the whole run; otherwise the segment is
scanned, with an early exit once `max_count` matches were printed.  Returns
the result together with the list of segments actually scanned. -/
def cmdDebugRun (ownerF : PubkeyB) (maxCount : Nat) :
    List SegResult → Nat → Except String Nat × List AppendVecSeg
  | [], found => (Except.ok found, [])
  | Except.error e :: _, _ => (Except.error e, [])
  | Except.ok seg :: rest, found =>
    let p := debugScanSeg ownerF maxCount found seg
    if p.2 then (Except.ok p.1, [seg])
    else
      let r := cmdDebugRun ownerF maxCount rest p.1
      (r.1, seg :: r.2)

theorem benchLoop_spec (segs : List SegResult) (st : BenchLoop) :
    cmdCompressionBenchmarkLoop segs st =
      ⟨st.processed ++ okSegs segs, st.logged ++ errSegs segs⟩ := by
  induction segs generalizing st with
  | nil => simp [cmdCompressionBenchmarkLoop, okSegs, errSegs]
  | cons s rest ih =>
    cases s <;> simp [cmdCompressionBenchmarkLoop, okSegs, errSegs, ih]

/-- **C1, corrected.** The compression-benchmark sequential caller never
aborts on a per-segment error value: it returns `Ok(())`, hands every
non-error segment (before and after any error) to the consumer in order,
and logs every error value.  The debug sequential caller, by contrast,
propagates an encountered error value out of the run and scans no further
segment. -/
theorem claim_C1_sequential_error_handling (segs rest : List SegResult)
    (ownerF : PubkeyB) (maxCount found : Nat) (e : String) :
    ((cmdCompressionBenchmarkRun segs).1 = Except.ok () ∧
     (cmdCompressionBenchmarkRun segs).2.processed = okSegs segs ∧
     (cmdCompressionBenchmarkRun segs).2.logged = errSegs segs) ∧
    cmdDebugRun ownerF maxCount (Except.error e :: rest) found =
      (Except.error e, []) := by
  refine ⟨?_, rfl⟩
  simp [cmdCompressionBenchmarkRun, benchLoop_spec]

/-- **C1, counterexample to the claim as stated.** On the sequence
`[Err "io", Ok seg]` the debug sequential caller aborts with the error and
the non-error segment after the error is never handed to the consumer,
contradicting "the run is not aborted, and every non-error segment in the
sequence, both before and after the error value, is still handed to the
consumer and processed". -/
theorem claim_C1_counterexample :
    (cmdDebugRun [2] 5 [Except.error "io", Except.ok [⟨[2], 3⟩]] 0).1 =
      Except.error "io" ∧
    (cmdDebugRun [2] 5 [Except.error "io", Except.ok [⟨[2], 3⟩]] 0).2 = [] :=
  ⟨rfl, rfl⟩

/-! ## Source selection (`main.rs`, `SupportedLoader`)

`SupportedLoader::new` is the single construction-time branch over the
descriptor string; afterwards `iter` dispatches uniformly to the selected
variant's iterator.  Filesystem and network effects (`Path::is_dir`,
`reqwest::blocking::get` plus `ArchiveSnapshotExtractor::from_reader`,
`UnpackedSnapshotExtractor::open`, `ArchiveSnapshotExtractor::open`) are
collaborator functions grouped in `LoaderEnv`. -/

/-- `str::starts_with` on the character-list view of a string. -/
def strStartsWith (s p : String) : Bool := p.toList.isPrefixOf s.toList

/-- The three source variants of `SupportedLoader`, each carrying the
segment sequence its extractor will yield. -/
inductive SupportedLoader where
  | Unpacked (it : List SegResult)
  | ArchiveFile (it : List SegResult)
  | ArchiveDownload (it : List SegResult)

/-- The filesystem/network collaborators used while constructing a
`SupportedLoader`. -/
structure LoaderEnv where
  isDir : String → Bool
  httpGet : String → Except String (List SegResult)
  openUnpacked : String → Except String (List SegResult)
  openArchive : String → Except String (List SegResult)

/-- `SupportedLoader::new_download`: fetch the URL and stream the archive. -/
def SupportedLoader.newDownload (env : LoaderEnv) (url : String) :
    Except String SupportedLoader :=
  (env.httpGet url).map SupportedLoader.ArchiveDownload

/-- `SupportedLoader::new_file`: a directory path opens the unpacked
source, any other path opens the local archive file. -/
def SupportedLoader.newFile (env : LoaderEnv) (path : String) :
    Except String SupportedLoader :=
  if env.isDir path then (env.openUnpacked path).map SupportedLoader.Unpacked
  else (env.openArchive path).map SupportedLoader.ArchiveFile

/-- `SupportedLoader::new`: the one construction-time branch on the
descriptor string. -/
def SupportedLoader.new (env : LoaderEnv) (source : String) :
    Except String SupportedLoader :=
  if strStartsWith source "http://" || strStartsWith source "https://" then
    SupportedLoader.newDownload env source
  else
    SupportedLoader.newFile env source

/-- `impl SnapshotExtractor for SupportedLoader`: `iter` dispatches to the
selected variant's iterator. -/
def SupportedLoader.iter : SupportedLoader → List SegResult
  | SupportedLoader.Unpacked it => it
  | SupportedLoader.ArchiveFile it => it
  | SupportedLoader.ArchiveDownload it => it

/-- **C2.** Source selection branches exactly once, at construction: a
descriptor beginning with `http://` or `https://` always yields the
streamed-archive variant, any other descriptor naming a directory yields
the unpacked-directory variant, and every remaining descriptor yields the
local-archive-file variant; afterwards `iter` is the uniform projection of
the chosen variant's sequence. -/
theorem claim_C2_source_selection (env : LoaderEnv) (source : String) :
    ((strStartsWith source "http://" = true ∨
      strStartsWith source "https://" = true) →
      ∀ l, SupportedLoader.new env source = Except.ok l →
        ∃ s, l = SupportedLoader.ArchiveDownload s) ∧
    (strStartsWith source "http://" = false →
     strStartsWith source "https://" = false →
     env.isDir source = true →
      ∀ l, SupportedLoader.new env source = Except.ok l →
        ∃ s, l = SupportedLoader.Unpacked s) ∧
    (strStartsWith source "http://" = false →
     strStartsWith source "https://" = false →
     env.isDir source = false →
      ∀ l, SupportedLoader.new env source = Except.ok l →
        ∃ s, l = SupportedLoader.ArchiveFile s) ∧
    (∀ s, (SupportedLoader.Unpacked s).iter = s ∧
          (SupportedLoader.ArchiveFile s).iter = s ∧
          (SupportedLoader.ArchiveDownload s).iter = s) := by
  refine ⟨fun h l hl => ?_, fun h1 h2 hd l hl => ?_, fun h1 h2 hd l hl => ?_,
    fun s => ⟨rfl, rfl, rfl⟩⟩
  · have hcond : (strStartsWith source "http://" ||
        strStartsWith source "https://") = true := by
      rcases h with h | h <;> simp [h]
    have hnew : SupportedLoader.new env source =
        (env.httpGet source).map SupportedLoader.ArchiveDownload := by
      simp [SupportedLoader.new, hcond, SupportedLoader.newDownload]
    rw [hnew] at hl
    cases hres : env.httpGet source with
    | error err => rw [hres] at hl; simp [Except.map] at hl
    | ok v =>
      rw [hres] at hl
      simp [Except.map] at hl
      exact ⟨v, hl.symm⟩
  · have hnew : SupportedLoader.new env source =
        (env.openUnpacked source).map SupportedLoader.Unpacked := by
      simp [SupportedLoader.new, h1, h2, SupportedLoader.newFile, hd]
    rw [hnew] at hl
    cases hres : env.openUnpacked source with
    | error err => rw [hres] at hl; simp [Except.map] at hl
    | ok v =>
      rw [hres] at hl
      simp [Except.map] at hl
      exact ⟨v, hl.symm⟩
  · have hnew : SupportedLoader.new env source =
        (env.openArchive source).map SupportedLoader.ArchiveFile := by
      simp [SupportedLoader.new, h1, h2, SupportedLoader.newFile, hd]
    rw [hnew] at hl
    cases hres : env.openArchive source with
    | error err => rw [hres] at hl; simp [Except.map] at hl
    | ok v =>
      rw [hres] at hl
      simp [Except.map] at hl
      exact ⟨v, hl.symm⟩

theorem claim_C2_witness :
    (strStartsWith "http://node/snap.tar.zst" "http://" = true ∧
     strStartsWith "snapshots" "http://" = false ∧
     strStartsWith "snapshots" "https://" = false ∧
     strStartsWith "snap.tar.zst" "http://" = false ∧
     strStartsWith "snap.tar.zst" "https://" = false) ∧
    (∃ s, SupportedLoader.ArchiveDownload ([] : List SegResult) =
      SupportedLoader.ArchiveDownload s) ∧
    (∃ s, SupportedLoader.Unpacked ([Except.ok []] : List SegResult) =
      SupportedLoader.Unpacked s) ∧
    (∃ s, SupportedLoader.ArchiveFile ([] : List SegResult) =
      SupportedLoader.ArchiveFile s) :=
  ⟨⟨by decide, by decide, by decide, by decide, by decide⟩,
   (claim_C2_source_selection
      ⟨fun p => p == "snapshots", fun _ => Except.ok [],
       fun _ => Except.ok [Except.ok []], fun _ => Except.ok []⟩
      "http://node/snap.tar.zst").1 (Or.inl (by decide))
      (SupportedLoader.ArchiveDownload []) rfl,
   (claim_C2_source_selection
      ⟨fun p => p == "snapshots", fun _ => Except.ok [],
       fun _ => Except.ok [Except.ok []], fun _ => Except.ok []⟩
      "snapshots").2.1 (by decide) (by decide) (by decide)
      (SupportedLoader.Unpacked [Except.ok []]) rfl,
   (claim_C2_source_selection
      ⟨fun p => p == "snapshots", fun _ => Except.ok [],
       fun _ => Except.ok [Except.ok []], fun _ => Except.ok []⟩
      "snap.tar.zst").2.2.1 (by decide) (by decide) (by decide)
      (SupportedLoader.ArchiveFile []) rfl⟩

/-! ## Top-level error propagation (`main.rs`, `main` and `_main`) -/

/-- The effects of one program invocation that `_main` sequences: the
result of `SupportedLoader::new` and the result of running the selected
command on the loader. -/
structure MainEnv where
  loaderRes : Except String SupportedLoader
  runCommand : SupportedLoader → Except String Unit

/-- `_main`: builds the loader with `?`, then runs the selected command
with `?`; also records whether a command was ever invoked. -/
def mainInner (env : MainEnv) : Except String Unit × Bool :=
  match env.loaderRes with
  | Except.error e => (Except.error e, false)
  | Except.ok l =>
    match env.runCommand l with
    | Except.error e => (Except.error e, true)
    | Except.ok _ => (Except.ok (), true)

/-- `main`: reports `_main`'s error through the logger and exits with
status 1, or exits with status 0.  Returns (exit status, logged error). -/
def mainTop (env : MainEnv) : Nat × Option String :=
  match (mainInner env).1 with
  | Except.error e => (1, some e)
  | Except.ok _ => (0, none)

/-- **C6.** Fatal errors are terminal: when source construction fails the
error is `_main`'s result and no command (hence no segment processing) ever
runs; when the command invocation fails that error is `_main`'s result; in
both cases the process logs the error and exits with failure status 1
instead of continuing. -/
theorem claim_C6_fatal_errors (env : MainEnv) (e : String) :
    (env.loaderRes = Except.error e →
      mainInner env = (Except.error e, false) ∧ mainTop env = (1, some e)) ∧
    (∀ l, env.loaderRes = Except.ok l → env.runCommand l = Except.error e →
      mainInner env = (Except.error e, true) ∧ mainTop env = (1, some e)) := by
  constructor
  · intro h
    constructor
    · simp [mainInner, h]
    · simp [mainTop, mainInner, h]
  · intro l hl hc
    constructor
    · simp [mainInner, hl, hc]
    · simp [mainTop, mainInner, hl, hc]

theorem claim_C6_witness :
    ((Except.error "no such file" :
        Except String SupportedLoader) = Except.error "no such file") ∧
    mainInner ⟨Except.error "no such file", fun _ => Except.ok ()⟩ =
      (Except.error "no such file", false) ∧
    mainTop ⟨Except.error "no such file", fun _ => Except.ok ()⟩ =
      (1, some "no such file") ∧
    mainInner ⟨Except.ok (SupportedLoader.ArchiveFile []),
        fun _ => Except.error "bad owner"⟩ =
      (Except.error "bad owner", true) ∧
    mainTop ⟨Except.ok (SupportedLoader.ArchiveFile []),
        fun _ => Except.error "bad owner"⟩ =
      (1, some "bad owner") :=
  ⟨rfl,
   ((claim_C6_fatal_errors ⟨Except.error "no such file", fun _ => Except.ok ()⟩
      "no such file").1 rfl).1,
   ((claim_C6_fatal_errors ⟨Except.error "no such file", fun _ => Except.ok ()⟩
      "no such file").1 rfl).2,
   ((claim_C6_fatal_errors ⟨Except.ok (SupportedLoader.ArchiveFile []),
      fun _ => Except.error "bad owner"⟩ "bad owner").2
      (SupportedLoader.ArchiveFile []) rfl rfl).1,
   ((claim_C6_fatal_errors ⟨Except.ok (SupportedLoader.ArchiveFile []),
      fun _ => Except.error "bad owner"⟩ "bad owner").2
      (SupportedLoader.ArchiveFile []) rfl rfl).2⟩

/-! ## The progress-tracking read wrapper (`main.rs`, `LoadProgressTracker`)

A byte reader is a state machine: a read request of `n` bytes returns the
bytes read (or an I/O error) and the successor state.
`new_read_progress_tracker` wraps the underlying reader in the progress
bar's reader (`ProgressBar::wrap_read`, external `indicatif` crate) and the
resulting `LoadProgressTracker`'s `read`, `read_vectored`, `read_to_string`
and `read_exact` each delegate directly to that wrapped reader. -/

/-- A byte reader over state type `σ`: a read of at most `n` bytes yields
the bytes actually read or an I/O error, plus the successor state. -/
structure ByteReader (σ : Type) where
  read : σ → Nat → (Except String (List Nat)) × σ

/-- Modelled from the spec: the progress-bar read wrapper supplied by the
external `indicatif` crate (`ProgressBar::wrap_read`, used by
`LoadProgressTracking::new_read_progress_tracker`) is "purely
observational, never affects correctness": it forwards every read to the
underlying reader, additionally accumulating the number of bytes read into
the progress position. -/
def wrapRead {σ : Type} (r : ByteReader σ) : ByteReader (σ × Nat) :=
  { read := fun s n =>
      match r.read s.1 n with
      | (Except.ok bytes, s') => (Except.ok bytes, (s', s.2 + bytes.length))
      | (Except.error e, s') => (Except.error e, (s', s.2)) }

/-- `LoadProgressTracking::new_read_progress_tracker` builds a
`LoadProgressTracker` whose `rd` field is the progress-wrapped reader and
whose `Read` methods all delegate to `self.rd`; its observable reading
behaviour is therefore exactly `wrapRead` of the underlying reader,
starting at progress position 0. -/
def newReadProgressTracker {σ : Type} (r : ByteReader σ) :
    ByteReader (σ × Nat) :=
  wrapRead r

/-- Run a sequence of read requests through a reader, collecting each
call's result. -/
def runReads {σ : Type} (r : ByteReader σ) :
    σ → List Nat → List (Except String (List Nat))
  | _, [] => []
  | s, n :: rest =>
    let p := r.read s n
    p.1 :: runReads r p.2 rest

theorem runReads_wrapRead {σ : Type} (r : ByteReader σ)
    (requests : List Nat) (s : σ) (pos : Nat) :
    runReads (wrapRead r) (s, pos) requests = runReads r s requests := by
  induction requests generalizing s pos with
  | nil => rfl
  | cons n rest ih =>
    cases hres : r.read s n with
    | mk res s' =>
      cases res <;> simp [runReads, wrapRead, hres] <;> exact ih _ _

/-- **C7.** The progress tracker is purely observational: for every
underlying reader, every starting state and every sequence of read
requests, reading through `LoadProgressTracker` returns call by call
exactly the results (bytes or error) the unwrapped reader returns, so the
byte stream is identical. -/
theorem claim_C7_progress_tracker_observational {σ : Type}
    (r : ByteReader σ) (s : σ) (requests : List Nat) :
    runReads (newReadProgressTracker r) (s, 0) requests =
      runReads r s requests :=
  runReads_wrapRead r requests s 0

/-! ## The SPL token-account dictionary compressor (`compressor.rs`)

`TokenAccountCompressor` deduplicates the pubkeys occurring in token
accounts through a growing `pubkey_list` and a `pubkey_position` hash map
from pubkey to its index in that list.  The external collaborators —
`wincode` (de)serialization and `Pubkey::find_program_address` (with the
token/ATA program id constants baked in) — are parameters of the
operations that call them; file contents are byte strings passed
explicitly. -/

/-- SPL token account state (`AccountState`). -/
inductive AccountState where
  | Uninitialized
  | Initialized
  | Frozen
deriving Repr, DecidableEq

/-- The fields of `StoredAccountMeta` the compressor reads: the account's
pubkey (`meta.pubkey`) and its raw data bytes. -/
structure StoredAccountMeta where
  pubkey : PubkeyB
  data : List Nat
deriving Repr, DecidableEq

/-- A deserialized 165-byte SPL token account (`TokenAccountData`), with
`COption` fields as `Option`. -/
structure TokenAccountData where
  mint : PubkeyB
  owner : PubkeyB
  amount : Nat
  delegate : Option PubkeyB
  state : AccountState
  is_native : Option Nat
  delegated_amount : Nat
  close_authority : Option PubkeyB
deriving Repr, DecidableEq

/-- `TokenAccountPubkey`: a token account's own pubkey is either the
canonical ATA PDA (derivable, not stored) or a dictionary index. -/
inductive TokenAccountPubkey where
  | Pda
  | Custom (pos : Nat)
deriving Repr, DecidableEq

/-- `TokenAccountDataCompressed`: pubkeys replaced by dictionary indices. -/
structure TokenAccountDataCompressed where
  pubkey : TokenAccountPubkey
  mint : Nat
  owner : Nat
  amount : Nat
  delegate : Option Nat
  state : AccountState
  is_native : Option Nat
  delegated_amount : Nat
  close_authority : Option Nat
deriving Repr, DecidableEq

/-- `TokenAccountCompressorState`: the persisted part of the compressor. -/
structure TokenAccountCompressorState where
  pubkey_list : List PubkeyB
  accounts : List TokenAccountDataCompressed
deriving Repr, DecidableEq

/-- `TokenAccountCompressor` (the `token_program`/`ata_program` constants
are folded into the PDA collaborator function passed to `add`). -/
structure TokenAccountCompressor where
  state : TokenAccountCompressorState
  pubkey_position : List (PubkeyB × Nat)
deriving Repr, DecidableEq

/-- `HashMap::get` on the association-list model of `pubkey_position`. -/
def lookupPos : List (PubkeyB × Nat) → PubkeyB → Option Nat
  | [], _ => none
  | (k, v) :: rest, q => if k = q then some v else lookupPos rest q

/-- `HashMap::insert` (replace an existing binding or append a new one) on
the association-list model of `pubkey_position`. -/
def posInsert (m : List (PubkeyB × Nat)) (k : PubkeyB) (v : Nat) :
    List (PubkeyB × Nat) :=
  match m with
  | [] => [(k, v)]
  | (k', v') :: rest =>
    if k' = k then (k, v) :: rest else (k', v') :: posInsert rest k v

/-- `TokenAccountCompressor::get_or_insert_pubkey_position`: return the
existing index of `pubkey`, or append it to `pubkey_list` and record the
new index. -/
def TokenAccountCompressor.get_or_insert_pubkey_position
    (c : TokenAccountCompressor) (pubkey : PubkeyB) :
    Nat × TokenAccountCompressor :=
  match lookupPos c.pubkey_position pubkey with
  | some position => (position, c)
  | none =>
    let position := c.state.pubkey_list.length
    (position,
     { state := { c.state with pubkey_list := c.state.pubkey_list ++ [pubkey] },
       pubkey_position := posInsert c.pubkey_position pubkey position })

/-- `Compressor::new` for `TokenAccountCompressor`. -/
def TokenAccountCompressor.new : TokenAccountCompressor :=
  { state := { pubkey_list := [], accounts := [] }, pubkey_position := [] }

/-- `Compressor::len` for `TokenAccountCompressor`. -/
def TokenAccountCompressor.len (c : TokenAccountCompressor) : Nat :=
  c.state.accounts.length

/-- `pubkey_list.iter().enumerate().map(|(i, pk)| (*pk, i)).collect()`:
sequential hash-map insertion, later indices overwriting earlier ones for a
duplicated pubkey. -/
def buildPubkeyPositionAux (m : List (PubkeyB × Nat)) (i : Nat) :
    List PubkeyB → List (PubkeyB × Nat)
  | [] => m
  | pk :: rest => buildPubkeyPositionAux (posInsert m pk i) (i + 1) rest

/-- The `pubkey_position` map `Compressor::load` reconstructs from a loaded
`pubkey_list`. -/
def buildPubkeyPosition (l : List PubkeyB) : List (PubkeyB × Nat) :=
  buildPubkeyPositionAux [] 0 l

/-- `Compressor::load` for `TokenAccountCompressor`, on the contents of the
two files (`<path>.pubkeys` and `<path>.accounts`): deserialize both
vectors with the wincode collaborators and rebuild `pubkey_position` by
enumeration. -/
def TokenAccountCompressor.load
    (dePk : List Nat → Option (List PubkeyB))
    (deAcc : List Nat → Option (List TokenAccountDataCompressed))
    (pubkeyBytes accountBytes : List Nat) : Option TokenAccountCompressor :=
  match dePk pubkeyBytes with
  | none => none
  | some pubkey_list =>
    match deAcc accountBytes with
    | none => none
    | some accounts =>
      some { state := { pubkey_list := pubkey_list, accounts := accounts },
             pubkey_position := buildPubkeyPosition pubkey_list }

/-- `Compressor::persist` for `TokenAccountCompressor`: the contents
written to the two files are the wincode serializations of `pubkey_list`
and `accounts`. -/
def TokenAccountCompressor.persist
    (serPk : List PubkeyB → List Nat)
    (serAcc : List TokenAccountDataCompressed → List Nat)
    (c : TokenAccountCompressor) : List Nat × List Nat :=
  (serPk c.state.pubkey_list, serAcc c.state.accounts)

/-- `const TOKEN_ACCOUNT_LEN: usize = 165`. -/
def TOKEN_ACCOUNT_LEN : Nat := 165

/-- The `match` mapping a `COption<Pubkey>` field to a `COptionUsize`
dictionary position inside `Compressor::add` (used for `delegate` and
`close_authority`). -/
def TokenAccountCompressor.getOrInsertOpt (c : TokenAccountCompressor) :
    Option PubkeyB → Option Nat × TokenAccountCompressor
  | none => (none, c)
  | some d =>
    let q := c.get_or_insert_pubkey_position d
    (some q.1, q.2)

/-- `Compressor::add` for `TokenAccountCompressor`: skip (returning
`false`, state untouched) unless the stored account's data is exactly 165
bytes and deserializes as a token account; otherwise intern the pubkeys
(the account's own pubkey only when it is not the canonical ATA PDA
computed by the `findPda` collaborator), append one compressed account and
return `true`. -/
def TokenAccountCompressor.add
    (de : List Nat → Option TokenAccountData)
    (findPda : PubkeyB → PubkeyB → PubkeyB)
    (c : TokenAccountCompressor) (account : StoredAccountMeta) :
    Bool × TokenAccountCompressor :=
  if account.data.length ≠ TOKEN_ACCOUNT_LEN then (false, c)
  else
    match de account.data with
    | none => (false, c)
    | some token_account =>
      let expected_ata := findPda token_account.owner token_account.mint
      let p0 :=
        if account.pubkey = expected_ata then (TokenAccountPubkey.Pda, c)
        else
          let q := c.get_or_insert_pubkey_position account.pubkey
          (TokenAccountPubkey.Custom q.1, q.2)
      let q1 := p0.2.get_or_insert_pubkey_position token_account.owner
      let q2 := q1.2.get_or_insert_pubkey_position token_account.mint
      let p3 := q2.2.getOrInsertOpt token_account.delegate
      let p4 := p3.2.getOrInsertOpt token_account.close_authority
      (true,
       { p4.2 with state := { p4.2.state with accounts :=
           p4.2.state.accounts ++
             [{ pubkey := p0.1, owner := q1.1, mint := q2.1,
                amount := token_account.amount, delegate := p3.1,
                state := token_account.state,
                is_native := token_account.is_native,
                delegated_amount := token_account.delegated_amount,
                close_authority := p4.1 }] } })

/-- The dictionary invariant: `pubkey_position` maps `pk` to `i` exactly
when `pubkey_list[i]` is `pk`. -/
def WFCompressor (c : TokenAccountCompressor) : Prop :=
  ∀ pk i, lookupPos c.pubkey_position pk = some i ↔
    c.state.pubkey_list[i]? = some pk

theorem lookupPos_posInsert (m : List (PubkeyB × Nat)) (k : PubkeyB)
    (v : Nat) (q : PubkeyB) :
    lookupPos (posInsert m k v) q =
      if k = q then some v else lookupPos m q := by
  induction m with
  | nil => by_cases h : k = q <;> simp [posInsert, lookupPos, h]
  | cons kv rest ih =>
    obtain ⟨k', v'⟩ := kv
    by_cases h1 : k' = k
    · subst h1
      by_cases h2 : k' = q <;> simp [posInsert, lookupPos, h2]
    · by_cases h2 : k' = q
      · subst h2
        have hkq : ¬ k = k' := fun h => h1 h.symm
        simp [posInsert, lookupPos, h1, hkq]
      · simp [posInsert, lookupPos, h1, h2, ih]

theorem getOrInsert_found {c : TokenAccountCompressor} {pk : PubkeyB}
    {j : Nat} (h : lookupPos c.pubkey_position pk = some j) :
    c.get_or_insert_pubkey_position pk = (j, c) := by
  simp [TokenAccountCompressor.get_or_insert_pubkey_position, h]

theorem getOrInsert_lookup_self (c : TokenAccountCompressor) (pk : PubkeyB) :
    lookupPos (c.get_or_insert_pubkey_position pk).2.pubkey_position pk =
      some (c.get_or_insert_pubkey_position pk).1 := by
  cases hl : lookupPos c.pubkey_position pk with
  | some j => simp [TokenAccountCompressor.get_or_insert_pubkey_position, hl]
  | none =>
    simp [TokenAccountCompressor.get_or_insert_pubkey_position, hl,
      lookupPos_posInsert]

theorem getOrInsert_accounts (c : TokenAccountCompressor) (pk : PubkeyB) :
    (c.get_or_insert_pubkey_position pk).2.state.accounts =
      c.state.accounts := by
  cases hl : lookupPos c.pubkey_position pk <;>
    simp [TokenAccountCompressor.get_or_insert_pubkey_position, hl]

theorem getOrInsertOpt_accounts (c : TokenAccountCompressor)
    (o : Option PubkeyB) :
    (c.getOrInsertOpt o).2.state.accounts = c.state.accounts := by
  cases o with
  | none => rfl
  | some d => simp [TokenAccountCompressor.getOrInsertOpt, getOrInsert_accounts]

theorem getOrInsert_WF {c : TokenAccountCompressor} (h : WFCompressor c)
    (pk : PubkeyB) :
    WFCompressor (c.get_or_insert_pubkey_position pk).2 := by
  cases hl : lookupPos c.pubkey_position pk with
  | some j => rw [getOrInsert_found hl]; exact h
  | none =>
    intro pk' i
    have hres : (c.get_or_insert_pubkey_position pk).2 =
        { state := { pubkey_list := c.state.pubkey_list ++ [pk],
                     accounts := c.state.accounts },
          pubkey_position := posInsert c.pubkey_position pk
            c.state.pubkey_list.length } := by
      simp [TokenAccountCompressor.get_or_insert_pubkey_position, hl]
    rw [hres]
    simp only [lookupPos_posInsert]
    have hnotin : ∀ j : Nat, c.state.pubkey_list[j]? ≠ some pk := by
      intro j hj
      have := (h pk j).mpr hj
      rw [hl] at this
      cases this
    by_cases hpk : pk = pk'
    · subst hpk
      simp only [if_pos rfl]
      constructor
      · intro hi
        have : i = c.state.pubkey_list.length := by
          exact (Option.some.inj hi).symm
        subst this
        exact List.getElem?_concat_length _ _
      · intro hi
        rcases Nat.lt_trichotomy i c.state.pubkey_list.length with hlt | heq | hgt
        · rw [List.getElem?_append_left hlt] at hi
          exact absurd hi (hnotin i)
        · rw [heq]; simp
        · have hnone : (c.state.pubkey_list ++ [pk])[i]? = none := by
            apply List.getElem?_eq_none
            simp
            omega
          rw [hnone] at hi
          cases hi
    · simp only [if_neg hpk]
      rw [h pk' i]
      rcases Nat.lt_trichotomy i c.state.pubkey_list.length with hlt | heq | hgt
      · rw [List.getElem?_append_left hlt]
      · subst heq
        rw [List.getElem?_concat_length]
        have h1 : c.state.pubkey_list[c.state.pubkey_list.length]? = none :=
          List.getElem?_eq_none (Nat.le_refl _)
        rw [h1]
        constructor
        · intro hx; cases hx
        · intro hx
          exact absurd (Option.some.inj hx) hpk
      · have h1 : (c.state.pubkey_list ++ [pk])[i]? = none := by
          apply List.getElem?_eq_none
          simp
          omega
        have h2 : c.state.pubkey_list[i]? = none :=
          List.getElem?_eq_none (by omega)
        rw [h1, h2]

theorem getOrInsertOpt_WF {c : TokenAccountCompressor} (h : WFCompressor c)
    (o : Option PubkeyB) : WFCompressor (c.getOrInsertOpt o).2 := by
  cases o with
  | none => exact h
  | some d =>
    simpa [TokenAccountCompressor.getOrInsertOpt] using getOrInsert_WF h d

/-- The dictionary invariant ignores the `accounts` column. -/
theorem WF_with_accounts {c : TokenAccountCompressor} (h : WFCompressor c)
    (accs : List TokenAccountDataCompressed) :
    WFCompressor { state := { pubkey_list := c.state.pubkey_list,
                              accounts := accs },
                   pubkey_position := c.pubkey_position } :=
  h

theorem add_WF (de : List Nat → Option TokenAccountData)
    (findPda : PubkeyB → PubkeyB → PubkeyB) {c : TokenAccountCompressor}
    (h : WFCompressor c) (account : StoredAccountMeta) :
    WFCompressor (TokenAccountCompressor.add de findPda c account).2 := by
  unfold TokenAccountCompressor.add
  by_cases hlen : account.data.length ≠ TOKEN_ACCOUNT_LEN
  · simpa [hlen] using h
  · rw [if_neg hlen]
    cases hde : de account.data with
    | none => exact h
    | some ta =>
      by_cases hpda : account.pubkey = findPda ta.owner ta.mint
      · simp only [if_pos hpda]
        exact WF_with_accounts
          (getOrInsertOpt_WF (getOrInsertOpt_WF
            (getOrInsert_WF (getOrInsert_WF h _) _) _) _) _
      · simp only [if_neg hpda]
        exact WF_with_accounts
          (getOrInsertOpt_WF (getOrInsertOpt_WF
            (getOrInsert_WF (getOrInsert_WF (getOrInsert_WF h _) _) _) _) _) _

theorem WF_nodup {c : TokenAccountCompressor} (h : WFCompressor c) :
    c.state.pubkey_list.Nodup := by
  rw [List.nodup_iff_injective_get]
  intro a b hab
  have ha : c.state.pubkey_list[a.1]? = some (c.state.pubkey_list.get a) := by
    rw [List.getElem?_eq_getElem a.2, List.get_eq_getElem]
  have hb : c.state.pubkey_list[b.1]? = some (c.state.pubkey_list.get b) := by
    rw [List.getElem?_eq_getElem b.2, List.get_eq_getElem]
  rw [hab] at ha
  have h1 := (h (c.state.pubkey_list.get b) a.1).mpr ha
  have h2 := (h (c.state.pubkey_list.get b) b.1).mpr hb
  exact Fin.ext (Option.some.inj (h1.symm.trans h2))

theorem WF_lookup_lt {c : TokenAccountCompressor} (h : WFCompressor c)
    {pk : PubkeyB} {i : Nat}
    (hl : lookupPos c.pubkey_position pk = some i) :
    i < c.state.pubkey_list.length :=
  (List.getElem?_eq_some.mp ((h pk i).mp hl)).1

/-- First index of a pubkey in a list, if any. -/
def idxOf? (pk : PubkeyB) : List PubkeyB → Option Nat
  | [] => none
  | k :: rest => if k = pk then some 0 else (idxOf? pk rest).map (· + 1)

theorem idxOf?_eq_none {pk : PubkeyB} {l : List PubkeyB} (h : pk ∉ l) :
    idxOf? pk l = none := by
  induction l with
  | nil => rfl
  | cons k rest ih =>
    have hk : ¬ k = pk := fun he => h (he ▸ List.mem_cons_self k rest)
    have hr : pk ∉ rest := fun hm => h (List.mem_cons_of_mem k hm)
    simp [idxOf?, hk, ih hr]

theorem idxOf?_getElem {pk : PubkeyB} {l : List PubkeyB} {j : Nat}
    (h : idxOf? pk l = some j) : l[j]? = some pk := by
  induction l generalizing j with
  | nil => cases h
  | cons k rest ih =>
    by_cases hk : k = pk
    · simp [idxOf?, hk] at h
      subst h
      simp [hk]
    · simp [idxOf?, hk] at h
      obtain ⟨j', hj', hjj⟩ := h
      subst hjj
      rw [List.getElem?_cons_succ]
      exact ih hj'

theorem getElem?_idxOf {l : List PubkeyB} (hnd : l.Nodup) {i : Nat}
    {pk : PubkeyB} (h : l[i]? = some pk) : idxOf? pk l = some i := by
  induction l generalizing i with
  | nil => cases h
  | cons k rest ih =>
    obtain ⟨hkni, hnd'⟩ := List.nodup_cons.mp hnd
    cases i with
    | zero =>
      simp at h
      simp [idxOf?, h]
    | succ i =>
      rw [List.getElem?_cons_succ] at h
      have hk : ¬ k = pk := by
        intro he
        subst he
        exact hkni (List.getElem?_mem h)
      simp [idxOf?, hk, ih hnd' h]

theorem lookupPos_buildPubkeyPositionAux (l : List PubkeyB) (hnd : l.Nodup)
    (m : List (PubkeyB × Nat)) (s : Nat) (pk : PubkeyB) :
    lookupPos (buildPubkeyPositionAux m s l) pk =
      match idxOf? pk l with
      | some j => some (s + j)
      | none => lookupPos m pk := by
  induction l generalizing m s with
  | nil => simp [buildPubkeyPositionAux, idxOf?]
  | cons k rest ih =>
    obtain ⟨hkni, hnd'⟩ := List.nodup_cons.mp hnd
    by_cases hk : k = pk
    · subst hk
      have hnone : idxOf? k rest = none := idxOf?_eq_none hkni
      simp [buildPubkeyPositionAux, idxOf?, ih hnd', hnone,
        lookupPos_posInsert]
    · simp only [buildPubkeyPositionAux, idxOf?, if_neg hk, ih hnd']
      cases hj : idxOf? pk rest with
      | none => simp [lookupPos_posInsert, hk]
      | some j =>
        simp only [Option.map_some']
        simp
        omega

theorem lookupPos_buildPubkeyPosition {l : List PubkeyB} (hnd : l.Nodup)
    (pk : PubkeyB) (i : Nat) :
    lookupPos (buildPubkeyPosition l) pk = some i ↔ l[i]? = some pk := by
  rw [buildPubkeyPosition, lookupPos_buildPubkeyPositionAux l hnd [] 0 pk]
  cases hj : idxOf? pk l with
  | none =>
    simp only [lookupPos]
    constructor
    · intro hx; cases hx
    · intro hx
      rw [getElem?_idxOf hnd hx] at hj
      cases hj
  | some j =>
    simp only [Nat.zero_add]
    constructor
    · intro hx
      rw [← Option.some.inj hx]
      exact idxOf?_getElem hj
    · intro hx
      rw [getElem?_idxOf hnd hx] at hj
      rw [Option.some.inj hj]

theorem WF_new : WFCompressor TokenAccountCompressor.new := by
  intro pk i
  simp [TokenAccountCompressor.new, lookupPos]

/-- **C8, corrected.** The dictionary invariant — `pubkey_position` maps a
pubkey to `i` exactly when `pubkey_list[i]` is that pubkey — holds for
`new` and is preserved by `get_or_insert_pubkey_position` and `add`;
`load` establishes it provided the deserialized pubkey list has no
duplicates (as any list persisted from an invariant-satisfying compressor
does; for a duplicated list the rebuilt map keeps only the last index —
see the counterexample).  Under the invariant all stored indices are in
range and `pubkey_list` has no duplicates, `get_or_insert_pubkey_position`
is idempotent, and a call with a pubkey already present leaves the state
unchanged. -/
theorem claim_C8_dictionary_invariant
    (c : TokenAccountCompressor) (pk : PubkeyB) (j : Nat)
    (dePk : List Nat → Option (List PubkeyB))
    (deAcc : List Nat → Option (List TokenAccountDataCompressed))
    (pubkeyBytes accountBytes : List Nat)
    (de : List Nat → Option TokenAccountData)
    (findPda : PubkeyB → PubkeyB → PubkeyB)
    (account : StoredAccountMeta)
    (hwf : WFCompressor c) :
    WFCompressor TokenAccountCompressor.new ∧
    (∀ c', TokenAccountCompressor.load dePk deAcc pubkeyBytes accountBytes
        = some c' → c'.state.pubkey_list.Nodup → WFCompressor c') ∧
    WFCompressor (c.get_or_insert_pubkey_position pk).2 ∧
    WFCompressor (TokenAccountCompressor.add de findPda c account).2 ∧
    (lookupPos c.pubkey_position pk = some j →
      c.get_or_insert_pubkey_position pk = (j, c)) ∧
    ((c.get_or_insert_pubkey_position pk).2.get_or_insert_pubkey_position pk
      = ((c.get_or_insert_pubkey_position pk).1,
         (c.get_or_insert_pubkey_position pk).2)) ∧
    (∀ pk' i, lookupPos c.pubkey_position pk' = some i →
      i < c.state.pubkey_list.length) ∧
    c.state.pubkey_list.Nodup := by
  refine ⟨WF_new, ?_, getOrInsert_WF hwf pk, add_WF de findPda hwf account,
    fun hl => getOrInsert_found hl,
    getOrInsert_found (getOrInsert_lookup_self c pk),
    fun pk' i hl => WF_lookup_lt hwf hl, WF_nodup hwf⟩
  intro c' hload hnd
  cases hdpk : dePk pubkeyBytes with
  | none => simp [TokenAccountCompressor.load, hdpk] at hload
  | some l =>
    cases hdacc : deAcc accountBytes with
    | none => simp [TokenAccountCompressor.load, hdpk, hdacc] at hload
    | some accs =>
      simp [TokenAccountCompressor.load, hdpk, hdacc] at hload
      subst hload
      intro pk' i
      exact lookupPos_buildPubkeyPosition hnd pk' i

theorem claim_C8_witness :
    WFCompressor
      (TokenAccountCompressor.new.get_or_insert_pubkey_position [5]).2 ∧
    lookupPos (TokenAccountCompressor.new.get_or_insert_pubkey_position
      [5]).2.pubkey_position [5] = some 0 ∧
    ((TokenAccountCompressor.new.get_or_insert_pubkey_position
        [5]).2.get_or_insert_pubkey_position [5] =
      (0, (TokenAccountCompressor.new.get_or_insert_pubkey_position [5]).2)) ∧
    (TokenAccountCompressor.new.get_or_insert_pubkey_position
      [5]).2.state.pubkey_list.Nodup :=
  ⟨(claim_C8_dictionary_invariant TokenAccountCompressor.new [5] 0
      (fun _ => none) (fun _ => none) [] [] (fun _ => none)
      (fun _ _ => []) ⟨[], []⟩ WF_new).2.2.1,
   by decide,
   (claim_C8_dictionary_invariant
      (TokenAccountCompressor.new.get_or_insert_pubkey_position [5]).2 [5] 0
      (fun _ => none) (fun _ => none) [] [] (fun _ => none)
      (fun _ _ => []) ⟨[], []⟩
      (getOrInsert_WF WF_new [5])).2.2.2.2.1 (by decide),
   (claim_C8_dictionary_invariant
      (TokenAccountCompressor.new.get_or_insert_pubkey_position [5]).2 [5] 0
      (fun _ => none) (fun _ => none) [] [] (fun _ => none)
      (fun _ _ => []) ⟨[], []⟩
      (getOrInsert_WF WF_new [5])).2.2.2.2.2.2.2⟩

/-- **C8, counterexample to the claim as stated.** `load` does not maintain
the dictionary invariant on every input: a persisted pubkey file whose
deserialized list is `[p, p]` loads successfully, but the rebuilt
`pubkey_position` maps `p` to the last index 1, so `pubkey_list[0]` is `p`
while `pubkey_position` does not map `p` to 0 — the "exactly when"
invariant fails on the loaded state. -/
theorem claim_C8_counterexample :
    TokenAccountCompressor.load (fun _ => some [[1], [1]]) (fun _ => some [])
        [] [] =
      some { state := { pubkey_list := [[1], [1]], accounts := [] },
             pubkey_position := [([1], 1)] } ∧
    ¬ WFCompressor { state := { pubkey_list := [[1], [1]], accounts := [] },
                     pubkey_position := [([1], 1)] } := by
  constructor
  · rfl
  · intro h
    have h0 := (h [1] 0).mpr rfl
    simp [lookupPos] at h0

/-- **C9.** `add` is atomic on skip: a stored account whose data is not
exactly 165 bytes, or whose data fails to deserialize as a token account,
is rejected with `false` and the whole compressor state is left unchanged;
an accepted account yields `true` and appends exactly one compressed
account, so `len()` grows by exactly one. -/
theorem claim_C9_add_skip_atomic
    (de : List Nat → Option TokenAccountData)
    (findPda : PubkeyB → PubkeyB → PubkeyB)
    (c : TokenAccountCompressor) (account : StoredAccountMeta)
    (ta : TokenAccountData) :
    (account.data.length ≠ TOKEN_ACCOUNT_LEN →
      TokenAccountCompressor.add de findPda c account = (false, c)) ∧
    (de account.data = none →
      TokenAccountCompressor.add de findPda c account = (false, c)) ∧
    (account.data.length = TOKEN_ACCOUNT_LEN → de account.data = some ta →
      (TokenAccountCompressor.add de findPda c account).1 = true ∧
      (∃ compressed,
        (TokenAccountCompressor.add de findPda c account).2.state.accounts =
          c.state.accounts ++ [compressed]) ∧
      (TokenAccountCompressor.add de findPda c account).2.len = c.len + 1) := by
  refine ⟨fun hlen => ?_, fun hde => ?_, fun hlen hde => ?_⟩
  · simp [TokenAccountCompressor.add, hlen]
  · by_cases hlen : account.data.length ≠ TOKEN_ACCOUNT_LEN
    · simp [TokenAccountCompressor.add, hlen]
    · unfold TokenAccountCompressor.add
      rw [if_neg hlen]
      simp [hde]
  · have hcond : ¬ account.data.length ≠ TOKEN_ACCOUNT_LEN := by simp [hlen]
    obtain ⟨w, hw⟩ : ∃ compressed,
        (TokenAccountCompressor.add de findPda c account).2.state.accounts =
          c.state.accounts ++ [compressed] := by
      unfold TokenAccountCompressor.add
      rw [if_neg hcond]
      simp only [hde]
      have h0 : (if account.pubkey = findPda ta.owner ta.mint
          then (TokenAccountPubkey.Pda, c)
          else (TokenAccountPubkey.Custom
                  (c.get_or_insert_pubkey_position account.pubkey).1,
                (c.get_or_insert_pubkey_position account.pubkey).2)).2.state.accounts
          = c.state.accounts := by
        by_cases hpda : account.pubkey = findPda ta.owner ta.mint <;>
          simp [hpda, getOrInsert_accounts]
      rw [getOrInsertOpt_accounts, getOrInsertOpt_accounts,
        getOrInsert_accounts, getOrInsert_accounts, h0]
      exact ⟨_, rfl⟩
    refine ⟨?_, ⟨w, hw⟩, ?_⟩
    · unfold TokenAccountCompressor.add
      rw [if_neg hcond]
      simp [hde]
    · simp [TokenAccountCompressor.len, hw]

theorem claim_C9_witness :
    ((StoredAccountMeta.mk [3] [0]).data.length ≠ TOKEN_ACCOUNT_LEN ∧
     (List.replicate 165 (0 : Nat)).length = TOKEN_ACCOUNT_LEN) ∧
    TokenAccountCompressor.add
      (fun _ => some ⟨[1], [2], 5, none, AccountState.Initialized,
        none, 0, none⟩)
      (fun _ _ => [9]) TokenAccountCompressor.new ⟨[3], [0]⟩ =
      (false, TokenAccountCompressor.new) ∧
    TokenAccountCompressor.add (fun _ => none) (fun _ _ => [9])
      TokenAccountCompressor.new ⟨[3], List.replicate 165 0⟩ =
      (false, TokenAccountCompressor.new) ∧
    (TokenAccountCompressor.add
      (fun _ => some ⟨[1], [2], 5, none, AccountState.Initialized,
        none, 0, none⟩)
      (fun _ _ => [9]) TokenAccountCompressor.new
      ⟨[3], List.replicate 165 0⟩).1 = true ∧
    (TokenAccountCompressor.add
      (fun _ => some ⟨[1], [2], 5, none, AccountState.Initialized,
        none, 0, none⟩)
      (fun _ _ => [9]) TokenAccountCompressor.new
      ⟨[3], List.replicate 165 0⟩).2.len = TokenAccountCompressor.new.len + 1 :=
  ⟨⟨by decide, by simp [TOKEN_ACCOUNT_LEN]⟩,
   (claim_C9_add_skip_atomic
      (fun _ => some ⟨[1], [2], 5, none, AccountState.Initialized,
        none, 0, none⟩)
      (fun _ _ => [9]) TokenAccountCompressor.new ⟨[3], [0]⟩
      ⟨[1], [2], 5, none, AccountState.Initialized, none, 0, none⟩).1
      (by decide),
   (claim_C9_add_skip_atomic (fun _ => none) (fun _ _ => [9])
      TokenAccountCompressor.new ⟨[3], List.replicate 165 0⟩
      ⟨[1], [2], 5, none, AccountState.Initialized, none, 0, none⟩).2.1 rfl,
   ((claim_C9_add_skip_atomic
      (fun _ => some ⟨[1], [2], 5, none, AccountState.Initialized,
        none, 0, none⟩)
      (fun _ _ => [9]) TokenAccountCompressor.new
      ⟨[3], List.replicate 165 0⟩
      ⟨[1], [2], 5, none, AccountState.Initialized, none, 0, none⟩).2.2
      (by simp [TOKEN_ACCOUNT_LEN]) rfl).1,
   ((claim_C9_add_skip_atomic
      (fun _ => some ⟨[1], [2], 5, none, AccountState.Initialized,
        none, 0, none⟩)
      (fun _ _ => [9]) TokenAccountCompressor.new
      ⟨[3], List.replicate 165 0⟩
      ⟨[1], [2], 5, none, AccountState.Initialized, none, 0, none⟩).2.2
      (by simp [TOKEN_ACCOUNT_LEN]) rfl).2.2⟩

/-- **C10.** Persist followed by load is a round trip: when the wincode
deserializers invert the serializers on the persisted state, loading the
two persisted files succeeds and returns a compressor with the same
`pubkey_list` and `accounts`, whose `pubkey_position` is exactly the map
sending each pubkey of the (duplicate-free) loaded list to its index. -/
theorem claim_C10_persist_load_roundtrip
    (serPk : List PubkeyB → List Nat)
    (dePk : List Nat → Option (List PubkeyB))
    (serAcc : List TokenAccountDataCompressed → List Nat)
    (deAcc : List Nat → Option (List TokenAccountDataCompressed))
    (c : TokenAccountCompressor)
    (hpk : dePk (serPk c.state.pubkey_list) = some c.state.pubkey_list)
    (hacc : deAcc (serAcc c.state.accounts) = some c.state.accounts)
    (hnd : c.state.pubkey_list.Nodup) :
    TokenAccountCompressor.load dePk deAcc
        (c.persist serPk serAcc).1 (c.persist serPk serAcc).2 =
      some { state := c.state,
             pubkey_position := buildPubkeyPosition c.state.pubkey_list } ∧
    (∀ pk i,
      lookupPos (buildPubkeyPosition c.state.pubkey_list) pk = some i ↔
        c.state.pubkey_list[i]? = some pk) := by
  constructor
  · simp [TokenAccountCompressor.load, TokenAccountCompressor.persist,
      hpk, hacc]
  · exact fun pk i => lookupPos_buildPubkeyPosition hnd pk i

theorem claim_C10_witness :
    ((fun _ : List Nat => some [[1], [2]]) ((fun _ => [0]) [[1], [2]]) =
        some [[1], [2]] ∧
     ([[1], [2]] : List PubkeyB).Nodup) ∧
    TokenAccountCompressor.load (fun _ => some [[1], [2]])
        (fun _ => some [])
        ((TokenAccountCompressor.mk ⟨[[1], [2]], []⟩
            [([1], 0), ([2], 1)]).persist (fun _ => [0]) (fun _ => [1])).1
        ((TokenAccountCompressor.mk ⟨[[1], [2]], []⟩
            [([1], 0), ([2], 1)]).persist (fun _ => [0]) (fun _ => [1])).2 =
      some { state := ⟨[[1], [2]], []⟩,
             pubkey_position := buildPubkeyPosition [[1], [2]] } ∧
    (lookupPos (buildPubkeyPosition [[1], [2]]) [2] = some 1 ↔
      ([[1], [2]] : List PubkeyB)[1]? = some [2]) :=
  ⟨⟨rfl, by decide⟩,
   (claim_C10_persist_load_roundtrip (fun _ => [0])
      (fun _ => some [[1], [2]]) (fun _ => [1]) (fun _ => some [])
      (TokenAccountCompressor.mk ⟨[[1], [2]], []⟩ [([1], 0), ([2], 1)])
      rfl rfl (by decide)).1,
   (claim_C10_persist_load_roundtrip (fun _ => [0])
      (fun _ => some [[1], [2]]) (fun _ => [1]) (fun _ => some [])
      (TokenAccountCompressor.mk ⟨[[1], [2]], []⟩ [([1], 0), ([2], 1)])
      rfl rfl (by decide)).2 [2] 1⟩

end SnapshotStats
